import Mathlib

/-!
Shallow embedding of the balancing engine of `src/main.py`
(class `ProxmoxBalance`): resource totals, imbalance measurement and the
greedy migration planner (`get_totals`, `calculate_imbalance`,
`calculate_best_host`, `balance_pass`, and the gate decision in `balance`).

Modelling conventions:
* Python floats are modelled as exact rationals (`Rat`).
* `self.node_list` (a dict keyed by node name, insertion ordered) is an
  association list `List (String × Node)`; dict iteration is list order.
* A Python exception aborting the cycle is `Except.error`:
  `ZeroDivisionError` for `x / 0`, `KeyError` for a missing dict key.
* A node's `vms` dict maps a VM name to its record; the planner reads only
  the record's `points` field, so we keep exactly that.
-/

set_option autoImplicit false

namespace ProxmoxBalance

/-- Python exceptions that the modelled code can raise. -/
inductive PyErr where
  | zeroDivisionError
  | keyError
  deriving DecidableEq, Repr

/-- One entry of `self.node_list`: capacity points, used points and the
`vms` dict (VM name ↦ its `points`; the other Proxmox fields of the VM
record are never read by the planner). -/
structure Node where
  points : Rat
  used_points : Rat
  vms : List (String × Rat)
  deriving DecidableEq, Repr

/-- `self.node_list`: insertion-ordered dict from node name to `Node`. -/
abbrev NodeList := List (String × Node)

/-- The dict appended to `operations` in `balance_pass`. -/
structure Operation where
  vm_name : String
  host : String
  target : String
  deriving DecidableEq, Repr

/-- Dict lookup `self.node_list[name]`, as an `Option`. -/
def findNode (nl : NodeList) (name : String) : Option Node :=
  (nl.find? (fun e => e.1 == name)).map (fun e => e.2)

/-- `self.node_list[name]['used_points']`, defaulting to `0` when the key
is absent (the model only reads it at keys that are present). -/
def usedOf (nl : NodeList) (name : String) : Rat :=
  ((findNode nl name).map (fun nd => nd.used_points)).getD 0

/-- `self.node_list[name]['used_points'] += delta` (in-place dict update:
every other entry is untouched). -/
def updateUsed (nl : NodeList) (name : String) (delta : Rat) : NodeList :=
  nl.map (fun e =>
    if e.1 == name then (e.1, { e.2 with used_points := e.2.used_points + delta }) else e)

/-- Python's builtin `abs` on a number. -/
def pyabs (x : Rat) : Rat := if x < 0 then -x else x

/-- `get_totals` (main.py lines 47-53).  `avg_points` divides by
`total_nodes`; with zero nodes Python raises `ZeroDivisionError`. -/
def get_totals (nl : NodeList) : Except PyErr (Rat × Nat × Rat × Rat × Rat) :=
  let total_disparity : Rat := 0
  let total_nodes : Nat := nl.length
  let total_points : Rat := (nl.map (fun e => e.2.points)).sum
  let total_used_points : Rat := (nl.map (fun e => e.2.used_points)).sum
  if total_nodes = 0 then .error .zeroDivisionError
  else
    .ok (total_disparity, total_nodes, total_points, total_used_points,
      total_used_points / (total_nodes : Rat))

/-- The loop body of `calculate_imbalance` (main.py lines 60-65): it adds
`abs(avg_points - points)` to the accumulator, then computes the per-node
diagnostic `disparity = abs(100 - points / avg_points * 100)` — which
raises `ZeroDivisionError` when `avg_points == 0` (the diagnostic itself
only feeds a print, so apart from that exception it has no effect). -/
def imbalance_loop (avg : Rat) : List (String × Node) → Rat → Except PyErr Rat
  | [], total_disparity => .ok total_disparity
  | e :: rest, total_disparity =>
    let total_disparity := total_disparity + pyabs (avg - e.2.used_points)
    if avg = 0 then .error .zeroDivisionError
    else imbalance_loop avg rest total_disparity

/-- `calculate_imbalance` (main.py lines 57-67). -/
def calculate_imbalance (nl : NodeList) : Except PyErr Rat :=
  match get_totals nl with
  | .error e => .error e
  | .ok (total_disparity, _, _, _, avg_points) =>
    imbalance_loop avg_points nl total_disparity

/-- The rule check of `calculate_best_host` (main.py lines 79-85): `skip`
is set iff some rule contains `vm_name` together with a different VM that
is a key of the candidate node's `vms` dict. -/
def rule_skips (vm_name : String) (separate : List (List String)) (candidate : Node) : Bool :=
  separate.any (fun rule =>
    rule.contains vm_name &&
      rule.any (fun vm => vm != vm_name && (candidate.vms.map (fun p => p.1)).contains vm))

/-- The candidate loop of `calculate_best_host` (main.py lines 74-92),
folding the accumulator `(new_host, new_host_points)` (initially
`(False, 0)`, here `(none, 0)`) over the node dict.  `current_used` is
`self.node_list[current_node]['used_points']` (constant during the loop,
since the loop never mutates the dict). -/
def best_host_loop (current_used : Rat) (current_node vm_name : String) (points : Rat)
    (separate : List (List String)) :
    List (String × Node) → Option String × Rat → Option String × Rat
  | [], acc => acc
  | e :: rest, acc =>
    if e.1 == current_node then
      best_host_loop current_used current_node vm_name points separate rest acc
    else if rule_skips vm_name separate e.2 then
      best_host_loop current_used current_node vm_name points separate rest acc
    else
      let new_points := e.2.used_points + points
      if new_points < current_used ∧ (new_points < acc.2 ∨ acc.2 = 0) then
        best_host_loop current_used current_node vm_name points separate rest (some e.1, new_points)
      else
        best_host_loop current_used current_node vm_name points separate rest acc

/-- `calculate_best_host` (main.py lines 70-93).  Line 71 calls
`get_totals` (raising `ZeroDivisionError` on an empty node dict) and
discards the result.  Python reads `self.node_list[current_node]` lazily
inside the loop (line 90); the model resolves the key once up front,
which agrees with Python whenever the key is present — it always is when
called from `balance_pass` — and on the empty dict, where `get_totals`
raises first. -/
def calculate_best_host (nl : NodeList) (current_node vm_name : String) (points : Rat)
    (separate : List (List String)) : Except PyErr (Option String) :=
  match get_totals nl with
  | .error e => .error e
  | .ok _ =>
    match findNode nl current_node with
    | none => .error .keyError
    | some cur =>
      .ok (best_host_loop cur.used_points current_node vm_name points separate nl (none, 0)).1

/-- Helper for `pySplitComma`: scan the characters, cutting at each
comma; `cur` accumulates the current field. -/
def splitCommaAux : List Char → List Char → List String
  | [], cur => [String.mk cur]
  | c :: rest, cur =>
    if c = ',' then String.mk cur :: splitCommaAux rest []
    else splitCommaAux rest (cur ++ [c])

/-- Python's `rule.split(',')` (main.py line 105): split on every comma,
no collapsing of empty fields (`"a,,b" → ["a", "", "b"]`, `"" → [""]`).
Defined by structural recursion over the characters. -/
def pySplitComma (s : String) : List String := splitCommaAux s.data []

/-- The inner loop of `balance_pass` (main.py lines 110-121): iterate the
`vms` dict of the node currently processed (its key/points pairs never
change during the pass), ask `calculate_best_host`, and on success append
an operation and shift `points` from the current node to the target in
the working `node_list`.  Python's `if target:` treats the non-empty node
name as truthy; the model assumes node names are non-empty strings, which
`balance_pass` never violates for emitted targets other than a node
actually named `""`. -/
def process_vms (current_node : String) (separate : List (List String)) :
    List (String × Rat) → NodeList → List Operation →
    Except PyErr (List Operation × NodeList)
  | [], st, ops => .ok (ops, st)
  | (vm_name, points) :: rest, st, ops =>
    match calculate_best_host st current_node vm_name points separate with
    | .error e => .error e
    | .ok none => process_vms current_node separate rest st ops
    | .ok (some target) =>
      let st := updateUsed (updateUsed st current_node (-points)) target points
      process_vms current_node separate rest st
        (ops ++ [{ vm_name := vm_name, host := current_node, target := target }])

/-- The outer loop of `balance_pass` (main.py lines 109-121): iterate the
node dict's keys (fixed for the whole pass) and, per node, read its `vms`
dict from the working state and run the inner loop. -/
def process_nodes (separate : List (List String)) :
    List String → NodeList → List Operation →
    Except PyErr (List Operation × NodeList)
  | [], st, ops => .ok (ops, st)
  | name :: rest, st, ops =>
    match findNode st name with
    | none => .error .keyError
    | some nd =>
      match process_vms name separate nd.vms st ops with
      | .error e => .error e
      | .ok (ops, st) => process_nodes separate rest st ops

/-- `balance_pass` (main.py lines 96-123), returning the emitted
operations together with the final working `node_list`.  Line 105 splits
each configured `rules['separate']` entry on commas.  Lines 100-102 sort
`self.vm_list` by points descending — but `vm_list` is never read again
in this function, so the sort has no effect on the result and is omitted
here. -/
def balance_pass (nl : NodeList) (rules_separate : List String) :
    Except PyErr (List Operation × NodeList) :=
  let separate := rules_separate.map (fun rule => pySplitComma rule)
  process_nodes separate (nl.map (fun e => e.1)) nl []

/-- The gate decision of `balance` (main.py lines 184-202), restricted to
its pure core: compute the imbalance and run `balance_pass` only when it
exceeds `len(node_list) * allowed_disparity`; otherwise no operation is
planned and the node list is left untouched.  (Building `node_list` from
the live API and executing the operations are external collaborators.) -/
def balance (nl : NodeList) (allowed_disparity : Rat) (rules_separate : List String) :
    Except PyErr (List Operation × NodeList) :=
  match calculate_imbalance nl with
  | .error e => .error e
  | .ok total_disparity =>
    if total_disparity > (nl.length : Rat) * allowed_disparity then
      balance_pass nl rules_separate
    else
      .ok ([], nl)

/-! ### Derived notions used to state the properties -/

/-- The points of VM `vm_name` as recorded in node `host`'s `vms` dict
(`0` when absent).  The `vms` dicts are never mutated by the planner, so
this is stable along a pass. -/
def vmPoints (nl : NodeList) (host vm_name : String) : Rat :=
  match findNode nl host with
  | none => 0
  | some nd => ((nd.vms.find? (fun p => p.1 == vm_name)).map (fun p => p.2)).getD 0

/-- The state change a single emitted operation performs on the working
node list (main.py lines 120-121). -/
def applyOp (st : NodeList) (op : Operation) : NodeList :=
  let p := vmPoints st op.host op.vm_name
  updateUsed (updateUsed st op.host (-p)) op.target p

/-- Replay a prefix of the emitted operations from a starting state; the
working states of the pass are exactly the replays of its prefixes. -/
def replay (st : NodeList) (ops : List Operation) : NodeList :=
  ops.foldl applyOp st

/-- The node a VM actually resides on after the operations are executed:
its unique initial host, overridden by each migration of that VM in
emission order. -/
def initialHost (nl : NodeList) (vm_name : String) : Option String :=
  (nl.find? (fun e => (e.2.vms.map (fun p => p.1)).contains vm_name)).map (fun e => e.1)

/-- Final residence of `vm_name` once all emitted operations have been
executed. -/
def finalHost (nl : NodeList) (ops : List Operation) (vm_name : String) : Option String :=
  ops.foldl (fun acc op => if op.vm_name == vm_name then some op.target else acc)
    (initialHost nl vm_name)

/-- Total used points of the cluster. -/
def sumUsed (nl : NodeList) : Rat := (nl.map (fun e => e.2.used_points)).sum

/-- A `node_list` as Python dicts guarantee it: node names are pairwise
distinct and, within each node, VM names are pairwise distinct. -/
def WellFormed (nl : NodeList) : Prop :=
  (nl.map (fun e => e.1)).Nodup ∧ ∀ e ∈ nl, (e.2.vms.map (fun p => p.1)).Nodup

instance (nl : NodeList) : Decidable (WellFormed nl) := by
  unfold WellFormed; infer_instance

/-- Eligibility of candidate entry `e` for moving `vm_name` (of `points`
points) off `current_node`, exactly as `calculate_best_host` tests it:
not the current node, not excluded by a separate rule, and projected
points strictly below the current node's used points. -/
def eligibleFor (nl : NodeList) (current_node vm_name : String) (points : Rat)
    (separate : List (List String)) (e : String × Node) : Prop :=
  e.1 ≠ current_node ∧ rule_skips vm_name separate e.2 = false ∧
    e.2.used_points + points < usedOf nl current_node

/-- Per-operation soundness condition, stated against the working state
`st` in force when the operation is emitted: the target differs from the
source, both are nodes of the cluster, and the projected target load is
strictly below the source's current load. -/
def opOk (st : NodeList) (op : Operation) : Prop :=
  op.target ≠ op.host ∧
    (∃ tn, findNode st op.target = some tn) ∧
    (∃ hn, findNode st op.host = some hn) ∧
    usedOf st op.target + vmPoints st op.host op.vm_name < usedOf st op.host

/-- All emitted operations are sound against their respective working
states (obtained by replaying the prefix already emitted). -/
def TraceOk (st : NodeList) : List Operation → Prop
  | [] => True
  | op :: rest => opOk st op ∧ TraceOk (applyOp st op) rest

/-! ### Concrete clusters used to exercise the code -/

/-- The worked scenario of the spec: node A (capacity 100, used 80,
workloads X=50, Y=30), node B (capacity 100, used 20, workload Z=20). -/
def nlC7 : NodeList :=
  [("A", { points := 100, used_points := 80, vms := [("X", 50), ("Y", 30)] }),
   ("B", { points := 100, used_points := 20, vms := [("Z", 20)] })]

/-- What the code actually emits on `nlC7`: X moves A→B, then Z moves
B→A. -/
def opsC7 : List Operation :=
  [{ vm_name := "X", host := "A", target := "B" },
   { vm_name := "Z", host := "B", target := "A" }]

/-- Final working state of the pass on `nlC7`: both nodes at 50. -/
def stFC7 : NodeList :=
  [("A", { points := 100, used_points := 50, vms := [("X", 50), ("Y", 30)] }),
   ("B", { points := 100, used_points := 50, vms := [("Z", 20)] })]

/-- A cluster on which the separate rule "X,Y" is violated by the pass:
Y is first moved B→C, and since `vms` membership is never updated,
X (same group) is later also moved onto C. -/
def nlC1 : NodeList :=
  [("B", { points := 100, used_points := 35, vms := [("Y", 10), ("W", 25)] }),
   ("A", { points := 100, used_points := 35, vms := [("X", 10), ("V", 25)] }),
   ("C", { points := 100, used_points := 5, vms := [("U", 5)] })]

/-- Operations the code emits on `nlC1` with rule "X,Y". -/
def opsC1 : List Operation :=
  [{ vm_name := "Y", host := "B", target := "C" },
   { vm_name := "X", host := "A", target := "C" }]

/-- Final working state of the pass on `nlC1`. -/
def stFC1 : NodeList :=
  [("B", { points := 100, used_points := 25, vms := [("Y", 10), ("W", 25)] }),
   ("A", { points := 100, used_points := 25, vms := [("X", 10), ("V", 25)] }),
   ("C", { points := 100, used_points := 25, vms := [("U", 5)] })]

/-- A cluster where enumeration order decides which workload migrates:
processed in dict order, the small v1 (1 point) migrates and v2 (5
points) then cannot; in descending-points order v2 would migrate. -/
def nlC3 : NodeList :=
  [("A", { points := 20, used_points := 6, vms := [("v1", 1), ("v2", 5)] }),
   ("B", { points := 20, used_points := 0, vms := [] })]

/-- Operations the code emits on `nlC3`. -/
def opsC3 : List Operation := [{ vm_name := "v1", host := "A", target := "B" }]

/-- Final working state of the pass on `nlC3`. -/
def stFC3 : NodeList :=
  [("A", { points := 20, used_points := 5, vms := [("v1", 1), ("v2", 5)] }),
   ("B", { points := 20, used_points := 1, vms := [] })]

/-- A cluster for the unknown-reference rule "ghost,X": "ghost" names no
workload anywhere. -/
def nlC8 : NodeList :=
  [("A", { points := 100, used_points := 8, vms := [("X", 5), ("Q", 3)] }),
   ("B", { points := 100, used_points := 0, vms := [] })]

/-- Operations the code emits on `nlC8` with rule "ghost,X". -/
def opsC8 : List Operation := [{ vm_name := "X", host := "A", target := "B" }]

/-- Final working state of the pass on `nlC8`. -/
def stFC8 : NodeList :=
  [("A", { points := 100, used_points := 3, vms := [("X", 5), ("Q", 3)] }),
   ("B", { points := 100, used_points := 5, vms := [] })]

/-- A cluster with two equally loaded candidates "c" and "a" for a
workload "v" on "s"; traversal meets "c" first, the smaller identifier
is "a". -/
def nlC5 : NodeList :=
  [("s", { points := 100, used_points := 10, vms := [("v", 3)] }),
   ("c", { points := 100, used_points := 2, vms := [] }),
   ("a", { points := 100, used_points := 2, vms := [] })]

/-- A perfectly balanced two-node cluster (disparity 0): the gate must
not trigger. -/
def nlC6 : NodeList :=
  [("A", { points := 10, used_points := 5, vms := [] }),
   ("B", { points := 10, used_points := 5, vms := [] })]

/-! ### Association-list lemmas -/

theorem updateUsed_keys (nl : NodeList) (n : String) (d : Rat) :
    (updateUsed nl n d).map (fun e => e.1) = nl.map (fun e => e.1) := by
  unfold updateUsed
  rw [List.map_map]
  apply List.map_congr_left
  intro e _
  simp only [Function.comp_apply]
  split <;> rfl

theorem updateUsed_length (nl : NodeList) (n : String) (d : Rat) :
    (updateUsed nl n d).length = nl.length := by
  simpa using congrArg List.length (updateUsed_keys nl n d)

theorem find?_fst_eq {α : Type} (l : List (String × α)) (v : String) (p : α)
    (hnd : (l.map (fun e => e.1)).Nodup) (hm : (v, p) ∈ l) :
    l.find? (fun q => q.1 == v) = some (v, p) := by
  induction l with
  | nil => cases hm
  | cons e t ih =>
    simp only [List.map, List.nodup_cons] at hnd
    rcases List.mem_cons.mp hm with he | ht
    · subst he; simp [List.find?]
    · have hne : (e.1 == v) = false := by
        apply beq_eq_false_iff_ne.mpr
        intro hvv
        exact hnd.1 (hvv ▸ (List.mem_map.mpr ⟨(v, p), ht, rfl⟩))
      simp [List.find?, hne, ih hnd.2 ht]

theorem findNode_mem {nl : NodeList} {n : String} {nd : Node}
    (h : findNode nl n = some nd) : (n, nd) ∈ nl := by
  unfold findNode at h
  rcases Option.map_eq_some'.mp h with ⟨e, he, hnd⟩
  have hp := List.find?_some he
  have hm := List.mem_of_find?_eq_some he
  have h1 : e.1 = n := by simpa using hp
  have : e = (n, nd) := by
    cases e; simp only at h1 hnd; simp [h1, hnd]
  exact this ▸ hm

theorem mem_findNode {nl : NodeList} {n : String} {nd : Node}
    (hnd : (nl.map (fun e => e.1)).Nodup) (h : (n, nd) ∈ nl) :
    findNode nl n = some nd := by
  unfold findNode
  rw [find?_fst_eq nl n nd hnd h]
  rfl

theorem findNode_mem_keys {nl : NodeList} {n : String} {nd : Node}
    (h : findNode nl n = some nd) : n ∈ nl.map (fun e => e.1) :=
  List.mem_map.mpr ⟨(n, nd), findNode_mem h, rfl⟩

theorem mem_keys_findNode {nl : NodeList} {n : String}
    (h : n ∈ nl.map (fun e => e.1)) : ∃ nd, findNode nl n = some nd := by
  rcases List.mem_map.mp h with ⟨e, he, h1⟩
  have : (nl.find? (fun q => q.1 == e.1)).isSome :=
    List.find?_isSome.mpr ⟨e, he, by simp⟩
  subst h1
  rcases Option.isSome_iff_exists.mp this with ⟨q, hq⟩
  exact ⟨q.2, by simp [findNode, hq]⟩

theorem find?_updateUsed (nl : NodeList) (n : String) (d : Rat) (m : String) :
    (updateUsed nl n d).find? (fun q => q.1 == m) =
      (nl.find? (fun q => q.1 == m)).map (fun e =>
        if e.1 == n then (e.1, { e.2 with used_points := e.2.used_points + d }) else e) := by
  induction nl with
  | nil => rfl
  | cons a t ih =>
    by_cases han : a.1 == n
    · have hu : updateUsed (a :: t) n d =
          (a.1, { a.2 with used_points := a.2.used_points + d }) :: updateUsed t n d := by
        simp only [updateUsed, List.map_cons]
        rw [if_pos han]
      rw [hu]
      simp only [List.find?_cons]
      by_cases ham : a.1 == m
      · simp only [ham, Option.map_some']
        rw [if_pos han]
      · simp [ham, ih]
    · have hu : updateUsed (a :: t) n d = a :: updateUsed t n d := by
        simp only [updateUsed, List.map_cons]
        rw [if_neg han]
      rw [hu]
      simp only [List.find?_cons]
      by_cases ham : a.1 == m
      · simp only [ham, Option.map_some']
        rw [if_neg han]
      · simp [ham, ih]

theorem findNode_updateUsed (nl : NodeList) (n : String) (d : Rat) (m : String) :
    findNode (updateUsed nl n d) m =
      (findNode nl m).map (fun nd =>
        if m == n then { nd with used_points := nd.used_points + d } else nd) := by
  unfold findNode
  rw [find?_updateUsed]
  cases h : nl.find? (fun q => q.1 == m) with
  | none => rfl
  | some e =>
    have h1 : e.1 = m := by simpa using List.find?_some h
    subst h1
    simp only [Option.map_some']
    by_cases hmn : (e.1 == n) = true
    · rw [if_pos hmn, if_pos hmn]
    · rw [if_neg hmn, if_neg hmn]

theorem findNode_updateUsed_ne {m n : String} (nl : NodeList) (d : Rat) (h : m ≠ n) :
    findNode (updateUsed nl n d) m = findNode nl m := by
  rw [findNode_updateUsed]
  cases hf : findNode nl m with
  | none => rfl
  | some nd =>
    simp only [Option.map_some']
    rw [if_neg (by simpa using h)]

theorem findNode_updateUsed_self (nl : NodeList) (n : String) (d : Rat) :
    findNode (updateUsed nl n d) n =
      (findNode nl n).map (fun nd => { nd with used_points := nd.used_points + d }) := by
  rw [findNode_updateUsed]
  cases hf : findNode nl n with
  | none => rfl
  | some nd =>
    simp only [Option.map_some']
    rw [if_pos (by simp)]

theorem usedOf_updateUsed_ne {m n : String} (nl : NodeList) (d : Rat) (h : m ≠ n) :
    usedOf (updateUsed nl n d) m = usedOf nl m := by
  unfold usedOf
  rw [findNode_updateUsed_ne nl d h]

theorem usedOf_updateUsed_self {nl : NodeList} {n : String} (d : Rat)
    (h : (findNode nl n).isSome) :
    usedOf (updateUsed nl n d) n = usedOf nl n + d := by
  unfold usedOf
  rw [findNode_updateUsed_self]
  rcases Option.isSome_iff_exists.mp h with ⟨nd, hnd⟩
  rw [hnd]
  rfl

theorem findNode_updateUsed_vms {nl : NodeList} {m : String} {nd : Node}
    (n : String) (d : Rat) (h : findNode nl m = some nd) :
    ∃ nd', findNode (updateUsed nl n d) m = some nd' ∧ nd'.vms = nd.vms := by
  rw [findNode_updateUsed, h]
  refine ⟨_, rfl, ?_⟩
  split <;> rfl

theorem vmPoints_updateUsed (nl : NodeList) (n : String) (d : Rat) (h v : String) :
    vmPoints (updateUsed nl n d) h v = vmPoints nl h v := by
  unfold vmPoints
  rw [findNode_updateUsed]
  cases hf : findNode nl h with
  | none => rfl
  | some nd =>
    simp only [Option.map_some']
    split <;> rfl

theorem vmPoints_applyOp (st : NodeList) (op : Operation) (h v : String) :
    vmPoints (applyOp st op) h v = vmPoints st h v := by
  unfold applyOp
  rw [vmPoints_updateUsed, vmPoints_updateUsed]

theorem vmPoints_replay (st : NodeList) (ops : List Operation) (h v : String) :
    vmPoints (replay st ops) h v = vmPoints st h v := by
  induction ops generalizing st with
  | nil => rfl
  | cons op rest ih =>
    show vmPoints (replay (applyOp st op) rest) h v = vmPoints st h v
    rw [ih, vmPoints_applyOp]

theorem updateUsed_not_mem {nl : NodeList} {n : String} (d : Rat)
    (h : n ∉ nl.map (fun e => e.1)) : updateUsed nl n d = nl := by
  induction nl with
  | nil => rfl
  | cons a t ih =>
    simp only [List.map_cons, List.mem_cons, not_or] at h
    have ha : (a.1 == n) = false := beq_eq_false_iff_ne.mpr (fun hh => h.1 hh.symm)
    simp only [updateUsed, List.map_cons]
    rw [if_neg (by simp [ha])]
    exact congrArg (a :: ·) (ih h.2)

theorem sumUsed_cons (a : String × Node) (t : NodeList) :
    sumUsed (a :: t) = a.2.used_points + sumUsed t := by
  simp [sumUsed]

theorem sumUsed_updateUsed {nl : NodeList} {n : String} (d : Rat)
    (hnd : (nl.map (fun e => e.1)).Nodup) (hm : n ∈ nl.map (fun e => e.1)) :
    sumUsed (updateUsed nl n d) = sumUsed nl + d := by
  induction nl with
  | nil => cases hm
  | cons a t ih =>
    simp only [List.map_cons, List.nodup_cons] at hnd
    by_cases ha : a.1 = n
    · have hnt : n ∉ t.map (fun e => e.1) := ha ▸ hnd.1
      have hu : updateUsed (a :: t) n d =
          (a.1, { a.2 with used_points := a.2.used_points + d }) :: updateUsed t n d := by
        simp only [updateUsed, List.map_cons]
        rw [if_pos (by simp [ha])]
      rw [hu, updateUsed_not_mem d hnt, sumUsed_cons, sumUsed_cons]
      ring
    · have hu : updateUsed (a :: t) n d = a :: updateUsed t n d := by
        simp only [updateUsed, List.map_cons]
        rw [if_neg (by simp [ha])]
      have hmt : n ∈ t.map (fun e => e.1) := by
        rcases List.mem_cons.mp hm with h1 | h2
        · exact absurd h1.symm ha
        · exact h2
      rw [hu, sumUsed_cons, sumUsed_cons, ih hnd.2 hmt]
      ring

theorem wellFormed_updateUsed {nl : NodeList} (n : String) (d : Rat)
    (h : WellFormed nl) : WellFormed (updateUsed nl n d) := by
  constructor
  · rw [updateUsed_keys]
    exact h.1
  · intro e he
    rcases List.mem_map.mp he with ⟨a, ha, hae⟩
    have hv : e.2.vms = a.2.vms := by
      subst hae
      split <;> rfl
    rw [hv]
    exact h.2 a ha

theorem wellFormed_applyOp {st : NodeList} (op : Operation)
    (h : WellFormed st) : WellFormed (applyOp st op) :=
  wellFormed_updateUsed _ _ (wellFormed_updateUsed _ _ h)

/-! ### Soundness of the candidate loop -/

theorem best_host_loop_sound (cu : Rat) (c v : String) (p : Rat)
    (sep : List (List String)) :
    ∀ (l : List (String × Node)) (acc : Option String × Rat) (t : String) (tp : Rat),
      best_host_loop cu c v p sep l acc = (some t, tp) →
      acc = (some t, tp) ∨
        ∃ nd, (t, nd) ∈ l ∧ t ≠ c ∧ rule_skips v sep nd = false ∧
          tp = nd.used_points + p ∧ nd.used_points + p < cu := by
  intro l
  induction l with
  | nil =>
    intro acc t tp h
    exact Or.inl h
  | cons e rest ih =>
    intro acc t tp h
    simp only [best_host_loop] at h
    by_cases h1 : (e.1 == c) = true
    · rw [if_pos h1] at h
      rcases ih acc t tp h with hl | ⟨nd, hm, hr⟩
      · exact Or.inl hl
      · exact Or.inr ⟨nd, List.mem_cons_of_mem e hm, hr⟩
    · rw [if_neg h1] at h
      have hec : e.1 ≠ c := fun hh => h1 (by simp [hh])
      by_cases h2 : rule_skips v sep e.2 = true
      · rw [if_pos h2] at h
        rcases ih acc t tp h with hl | ⟨nd, hm, hr⟩
        · exact Or.inl hl
        · exact Or.inr ⟨nd, List.mem_cons_of_mem e hm, hr⟩
      · rw [if_neg h2] at h
        by_cases h3 : e.2.used_points + p < cu ∧ (e.2.used_points + p < acc.2 ∨ acc.2 = 0)
        · rw [if_pos h3] at h
          rcases ih _ t tp h with hl | ⟨nd, hm, hr⟩
          · have ht : e.1 = t ∧ e.2.used_points + p = tp := by
              have h4 := congrArg Prod.fst hl
              have h5 := congrArg Prod.snd hl
              simp only at h4 h5
              exact ⟨(Option.some.injEq _ _).mp h4, h5⟩
            refine Or.inr ⟨e.2, ?_, ht.1 ▸ hec, eq_false_of_ne_true h2, ht.2.symm, h3.1⟩
            rw [← ht.1]
            exact List.mem_cons_self e rest
          · exact Or.inr ⟨nd, List.mem_cons_of_mem e hm, hr⟩
        · rw [if_neg h3] at h
          rcases ih acc t tp h with hl | ⟨nd, hm, hr⟩
          · exact Or.inl hl
          · exact Or.inr ⟨nd, List.mem_cons_of_mem e hm, hr⟩

theorem calculate_best_host_sound {nl : NodeList} {c v : String} {p : Rat}
    {sep : List (List String)} {t : String}
    (h : calculate_best_host nl c v p sep = .ok (some t)) :
    ∃ cur, findNode nl c = some cur ∧
      ∃ nd, (t, nd) ∈ nl ∧ t ≠ c ∧ rule_skips v sep nd = false ∧
        nd.used_points + p < cur.used_points := by
  unfold calculate_best_host at h
  cases hg : get_totals nl with
  | error e => rw [hg] at h; cases h
  | ok r =>
    rw [hg] at h
    cases hf : findNode nl c with
    | none => rw [hf] at h; cases h
    | some cur =>
      rw [hf] at h
      have h2 : (best_host_loop cur.used_points c v p sep nl (none, 0)).1 = some t := by
        injection h
      have h3 : best_host_loop cur.used_points c v p sep nl (none, 0) =
          (some t, (best_host_loop cur.used_points c v p sep nl (none, 0)).2) := by
        cases hb : best_host_loop cur.used_points c v p sep nl (none, 0)
        rw [hb] at h2
        simp only at h2
        rw [h2]
      rcases best_host_loop_sound cur.used_points c v p sep nl (none, 0) t _ h3 with hl | ⟨nd, hm, hr⟩
      · exact absurd (congrArg Prod.fst hl) (by simp)
      · exact ⟨cur, rfl, nd, hm, hr.1, hr.2.1, hr.2.2.2⟩

/-! ### Totality: the planner itself never raises -/

theorem get_totals_ok {nl : NodeList} (h : nl ≠ []) : ∃ r, get_totals nl = .ok r := by
  unfold get_totals
  rw [if_neg (by simpa using h)]
  exact ⟨_, rfl⟩

theorem calculate_best_host_ok {nl : NodeList} {c : String} (v : String) (p : Rat)
    (sep : List (List String)) (hne : nl ≠ []) (hc : c ∈ nl.map (fun e => e.1)) :
    ∃ r, calculate_best_host nl c v p sep = .ok r := by
  unfold calculate_best_host
  rcases get_totals_ok hne with ⟨r0, hr0⟩
  rw [hr0]
  rcases mem_keys_findNode hc with ⟨nd, hnd⟩
  rw [hnd]
  exact ⟨_, rfl⟩

theorem process_vms_total (c : String) (sep : List (List String)) :
    ∀ (vl : List (String × Rat)) (st : NodeList) (ops : List Operation),
      st ≠ [] → c ∈ st.map (fun e => e.1) →
      ∃ new stF, process_vms c sep vl st ops = .ok (new, stF) ∧
        stF.map (fun e => e.1) = st.map (fun e => e.1) := by
  intro vl
  induction vl with
  | nil => exact fun st ops _ _ => ⟨ops, st, rfl, rfl⟩
  | cons pr rest ih =>
    intro st ops h1 h2
    obtain ⟨v, p⟩ := pr
    rcases calculate_best_host_ok v p sep h1 h2 with ⟨r, hr⟩
    simp only [process_vms]
    rw [hr]
    cases r with
    | none => exact ih st ops h1 h2
    | some tgt =>
      have hkeys : (updateUsed (updateUsed st c (-p)) tgt p).map (fun e => e.1) =
          st.map (fun e => e.1) := by
        rw [updateUsed_keys, updateUsed_keys]
      have h1' : updateUsed (updateUsed st c (-p)) tgt p ≠ [] := by
        intro hnil
        apply h1
        have := hkeys
        rw [hnil] at this
        cases st with
        | nil => rfl
        | cons a t => cases this
      have h2' : c ∈ (updateUsed (updateUsed st c (-p)) tgt p).map (fun e => e.1) := by
        rw [hkeys]; exact h2
      rcases ih _ (ops ++ [{ vm_name := v, host := c, target := tgt }]) h1' h2' with
        ⟨new, stF, heq, hk⟩
      exact ⟨new, stF, heq, hk.trans hkeys⟩

theorem process_nodes_total (sep : List (List String)) :
    ∀ (names : List String) (st : NodeList) (ops : List Operation),
      (∀ n ∈ names, n ∈ st.map (fun e => e.1)) →
      ∃ new stF, process_nodes sep names st ops = .ok (new, stF) ∧
        stF.map (fun e => e.1) = st.map (fun e => e.1) := by
  intro names
  induction names with
  | nil => exact fun st ops _ => ⟨ops, st, rfl, rfl⟩
  | cons name rest ih =>
    intro st ops hsub
    have hmem : name ∈ st.map (fun e => e.1) := hsub name (List.mem_cons_self name rest)
    rcases mem_keys_findNode hmem with ⟨nd, hnd⟩
    have hne : st ≠ [] := by
      intro hnil
      rw [hnil] at hmem
      cases hmem
    rcases process_vms_total name sep nd.vms st ops hne hmem with ⟨new1, st1, h1, hk1⟩
    simp only [process_nodes]
    rw [hnd]
    have hsub' : ∀ n ∈ rest, n ∈ st1.map (fun e => e.1) := by
      intro n hn
      rw [hk1]
      exact hsub n (List.mem_cons_of_mem name hn)
    rcases ih st1 new1 hsub' with ⟨new, stF, heq, hk⟩
    refine ⟨new, stF, ?_, hk.trans hk1⟩
    show (match process_vms name sep nd.vms st ops with
      | Except.error e => Except.error e
      | Except.ok (ops, st) => process_nodes sep rest st ops) = Except.ok (new, stF)
    rw [h1]
    exact heq

/-! ### The accumulator of the pass is a pure prefix -/

theorem process_vms_acc (c : String) (sep : List (List String)) :
    ∀ (vl : List (String × Rat)) (st : NodeList) (ops : List Operation),
      process_vms c sep vl st ops =
        match process_vms c sep vl st [] with
        | .error e => .error e
        | .ok (new, stF) => .ok (ops ++ new, stF) := by
  intro vl
  induction vl with
  | nil =>
    intro st ops
    simp [process_vms]
  | cons pr rest ih =>
    obtain ⟨v, p⟩ := pr
    intro st ops
    simp only [process_vms, List.nil_append]
    cases hr : calculate_best_host st c v p sep with
    | error e => rfl
    | ok r =>
      cases r with
      | none => exact ih st ops
      | some tgt =>
        show process_vms c sep rest (updateUsed (updateUsed st c (-p)) tgt p)
            (ops ++ [{ vm_name := v, host := c, target := tgt }]) =
          match process_vms c sep rest (updateUsed (updateUsed st c (-p)) tgt p)
              [{ vm_name := v, host := c, target := tgt }] with
          | .error e => .error e
          | .ok (new, stF) => .ok (ops ++ new, stF)
        rw [ih _ (ops ++ [Operation.mk v c tgt]), ih _ [Operation.mk v c tgt]]
        cases hx : process_vms c sep rest (updateUsed (updateUsed st c (-p)) tgt p) [] with
        | error e => rfl
        | ok pr2 =>
          obtain ⟨new2, stF2⟩ := pr2
          simp [List.append_assoc]

theorem process_nodes_acc (sep : List (List String)) :
    ∀ (names : List String) (st : NodeList) (ops : List Operation),
      process_nodes sep names st ops =
        match process_nodes sep names st [] with
        | .error e => .error e
        | .ok (new, stF) => .ok (ops ++ new, stF) := by
  intro names
  induction names with
  | nil =>
    intro st ops
    simp [process_nodes]
  | cons name rest ih =>
    intro st ops
    simp only [process_nodes]
    cases hf : findNode st name with
    | none => rfl
    | some nd =>
      show (match process_vms name sep nd.vms st ops with
        | Except.error e => Except.error e
        | Except.ok (ops, st) => process_nodes sep rest st ops) =
        match (match process_vms name sep nd.vms st [] with
          | Except.error e => Except.error e
          | Except.ok (ops, st) => process_nodes sep rest st ops) with
        | Except.error e => Except.error e
        | Except.ok (new, stF) => Except.ok (ops ++ new, stF)
      rw [process_vms_acc name sep nd.vms st ops]
      cases hx : process_vms name sep nd.vms st [] with
      | error e => rfl
      | ok pr1 =>
        obtain ⟨new1, st1⟩ := pr1
        show process_nodes sep rest st1 (ops ++ new1) =
          match process_nodes sep rest st1 new1 with
          | .error e => .error e
          | .ok (new, stF) => .ok (ops ++ new, stF)
        rw [ih st1 (ops ++ new1), ih st1 new1]
        cases hy : process_nodes sep rest st1 [] with
        | error e => rfl
        | ok pr2 =>
          obtain ⟨new2, stF2⟩ := pr2
          simp [List.append_assoc]

/-! ### Replay and trace utilities -/

theorem replay_nil (st : NodeList) : replay st [] = st := rfl

theorem replay_cons (st : NodeList) (op : Operation) (l : List Operation) :
    replay st (op :: l) = replay (applyOp st op) l := rfl

theorem replay_append (st : NodeList) (l1 l2 : List Operation) :
    replay st (l1 ++ l2) = replay (replay st l1) l2 :=
  List.foldl_append applyOp st l1 l2

theorem traceOk_append {st : NodeList} {l1 l2 : List Operation}
    (h1 : TraceOk st l1) (h2 : TraceOk (replay st l1) l2) : TraceOk st (l1 ++ l2) := by
  induction l1 generalizing st with
  | nil => exact h2
  | cons op r ih => exact ⟨h1.1, ih h1.2 h2⟩

theorem traceOk_index {st : NodeList} {ops : List Operation} (h : TraceOk st ops) :
    ∀ i (hi : i < ops.length), opOk (replay st (ops.take i)) (ops.get ⟨i, hi⟩) := by
  induction ops generalizing st with
  | nil => intro i hi; cases hi
  | cons op rest ih =>
    intro i hi
    cases i with
    | zero => exact h.1
    | succ j =>
      have hj : j < rest.length := Nat.lt_of_succ_lt_succ hi
      have := ih h.2 j hj
      simpa [List.take_succ_cons, replay_cons] using this

/-! ### The master invariant of a balancing pass -/

theorem process_vms_spec (c : String) (sep : List (List String)) :
    ∀ (vl : List (String × Rat)) (st : NodeList) (new : List Operation) (stF : NodeList),
      WellFormed st → ∀ (cnd : Node), findNode st c = some cnd →
      (∀ pr ∈ vl, pr ∈ cnd.vms) →
      process_vms c sep vl st [] = .ok (new, stF) →
      stF = replay st new ∧ sumUsed stF = sumUsed st ∧ TraceOk st new := by
  intro vl
  induction vl with
  | nil =>
    intro st new stF _ cnd _ _ h
    have h3 : (([] : List Operation), st) = (new, stF) := by injection h
    have hnew : ([] : List Operation) = new := congrArg Prod.fst h3
    have hst : st = stF := congrArg Prod.snd h3
    subst hnew
    subst hst
    exact ⟨rfl, rfl, trivial⟩
  | cons pr rest ih =>
    obtain ⟨v, p⟩ := pr
    intro st new stF hwf cnd hc hvl h
    simp only [process_vms, List.nil_append] at h
    cases hr : calculate_best_host st c v p sep with
    | error e => rw [hr] at h; cases h
    | ok r =>
      rw [hr] at h
      cases r with
      | none =>
        change process_vms c sep rest st [] = .ok (new, stF) at h
        exact ih st new stF hwf cnd hc (fun q hq => hvl q (List.mem_cons_of_mem _ hq)) h
      | some tgt =>
        change process_vms c sep rest (updateUsed (updateUsed st c (-p)) tgt p)
            [{ vm_name := v, host := c, target := tgt }] = .ok (new, stF) at h
        rw [process_vms_acc] at h
        cases hbase : process_vms c sep rest (updateUsed (updateUsed st c (-p)) tgt p) [] with
        | error e => rw [hbase] at h; cases h
        | ok pr2 =>
          obtain ⟨new2, stF2⟩ := pr2
          rw [hbase] at h
          have h3 : ({ vm_name := v, host := c, target := tgt } :: new2, stF2) = (new, stF) := by
            injection h
          have hnew : { vm_name := v, host := c, target := tgt } :: new2 = new :=
            congrArg Prod.fst h3
          have hst : stF2 = stF := congrArg Prod.snd h3
          subst hnew
          subst hst
          obtain ⟨cur, hcur, nd, hmem, htc, hskip, hlt⟩ := calculate_best_host_sound hr
          have hcurc : cur = cnd := by
            rw [hc] at hcur
            injection hcur with h4
            exact h4.symm
          have hvp : vmPoints st c v = p := by
            unfold vmPoints
            rw [hc]
            show ((cnd.vms.find? (fun q => q.1 == v)).map (fun q => q.2)).getD 0 = p
            rw [find?_fst_eq cnd.vms v p (hwf.2 (c, cnd) (findNode_mem hc))
              (hvl (v, p) (List.mem_cons_self _ _))]
            rfl
          have happ : applyOp st { vm_name := v, host := c, target := tgt } =
              updateUsed (updateUsed st c (-p)) tgt p := by
            unfold applyOp
            rw [hvp]
          have hwf1 : WellFormed (updateUsed (updateUsed st c (-p)) tgt p) :=
            wellFormed_updateUsed _ _ (wellFormed_updateUsed _ _ hwf)
          obtain ⟨cnd1, hc1, hvms1⟩ : ∃ cnd1,
              findNode (updateUsed (updateUsed st c (-p)) tgt p) c = some cnd1 ∧
                cnd1.vms = cnd.vms := by
            obtain ⟨nd1, h1, hv1⟩ := findNode_updateUsed_vms c (-p) hc
            obtain ⟨nd2, h2, hv2⟩ := findNode_updateUsed_vms tgt p h1
            exact ⟨nd2, h2, hv2.trans hv1⟩
          have ihres := ih _ new2 stF2 hwf1 cnd1 hc1
            (fun q hq => by rw [hvms1]; exact hvl q (List.mem_cons_of_mem _ hq)) hbase
          have hop : opOk st { vm_name := v, host := c, target := tgt } := by
            refine ⟨htc, ⟨nd, mem_findNode hwf.1 hmem⟩, ⟨cnd, hc⟩, ?_⟩
            have h5 : usedOf st tgt = nd.used_points := by
              unfold usedOf
              rw [mem_findNode hwf.1 hmem]
              rfl
            have h6 : usedOf st c = cnd.used_points := by
              unfold usedOf
              rw [hc]
              rfl
            show usedOf st tgt + vmPoints st c v < usedOf st c
            rw [h5, h6, hvp]
            exact hcurc ▸ hlt
          have hsum1 : sumUsed (updateUsed (updateUsed st c (-p)) tgt p) = sumUsed st := by
            have hck : c ∈ st.map (fun e => e.1) := findNode_mem_keys hc
            have htk : tgt ∈ st.map (fun e => e.1) :=
              List.mem_map.mpr ⟨(tgt, nd), hmem, rfl⟩
            rw [sumUsed_updateUsed p (by rw [updateUsed_keys]; exact hwf.1)
              (by rw [updateUsed_keys]; exact htk)]
            rw [sumUsed_updateUsed (-p) hwf.1 hck]
            ring
          refine ⟨?_, ?_, hop, ?_⟩
          · rw [replay_cons, happ]
            exact ihres.1
          · rw [ihres.2.1, hsum1]
          · rw [happ]
            exact ihres.2.2

theorem process_nodes_spec (sep : List (List String)) :
    ∀ (names : List String) (st : NodeList) (new : List Operation) (stF : NodeList),
      WellFormed st →
      process_nodes sep names st [] = .ok (new, stF) →
      stF = replay st new ∧ sumUsed stF = sumUsed st ∧ TraceOk st new ∧ WellFormed stF := by
  intro names
  induction names with
  | nil =>
    intro st new stF hwf h
    have h3 : (([] : List Operation), st) = (new, stF) := by injection h
    have hnew : ([] : List Operation) = new := congrArg Prod.fst h3
    have hst : st = stF := congrArg Prod.snd h3
    subst hnew
    subst hst
    exact ⟨rfl, rfl, trivial, hwf⟩
  | cons name rest ih =>
    intro st new stF hwf h
    simp only [process_nodes] at h
    cases hf : findNode st name with
    | none => rw [hf] at h; cases h
    | some nd =>
      rw [hf] at h
      change (match process_vms name sep nd.vms st [] with
        | Except.error e => Except.error e
        | Except.ok (ops, st) => process_nodes sep rest st ops) = Except.ok (new, stF) at h
      cases hv : process_vms name sep nd.vms st [] with
      | error e => rw [hv] at h; cases h
      | ok pr1 =>
        obtain ⟨new1, st1⟩ := pr1
        rw [hv] at h
        change process_nodes sep rest st1 new1 = .ok (new, stF) at h
        rw [process_nodes_acc] at h
        cases hb : process_nodes sep rest st1 [] with
        | error e => rw [hb] at h; cases h
        | ok pr2 =>
          obtain ⟨new2, stF2⟩ := pr2
          rw [hb] at h
          have h3 : (new1 ++ new2, stF2) = (new, stF) := by injection h
          have hnew : new1 ++ new2 = new := congrArg Prod.fst h3
          have hst : stF2 = stF := congrArg Prod.snd h3
          subst hnew
          subst hst
          have hspec1 := process_vms_spec name sep nd.vms st new1 st1 hwf nd hf
            (fun _ hq => hq) hv
          have hwf1 : WellFormed st1 := by
            rw [hspec1.1]
            have : ∀ (l : List Operation) (s : NodeList), WellFormed s → WellFormed (replay s l) := by
              intro l
              induction l with
              | nil => exact fun s hs => hs
              | cons o r ihr => exact fun s hs => ihr (applyOp s o) (wellFormed_applyOp o hs)
            exact this new1 st hwf
          have hspec2 := ih st1 new2 stF2 hwf1 hb
          refine ⟨?_, ?_, ?_, hspec2.2.2.2⟩
          · rw [replay_append, ← hspec1.1]
            exact hspec2.1
          · rw [hspec2.2.1, hspec1.2.1]
          · exact traceOk_append hspec1.2.2 (by rw [← hspec1.1]; exact hspec2.2.2.1)

/-- Inline helper used above, stated separately for reuse: replaying any
operation list preserves well-formedness. -/
theorem wellFormed_replay {st : NodeList} (ops : List Operation)
    (h : WellFormed st) : WellFormed (replay st ops) := by
  induction ops generalizing st with
  | nil => exact h
  | cons o r ihr => exact ihr (wellFormed_applyOp o h)

/-- The full pass: the final working state is the replay of the emitted
operations, the total used points are conserved, and each operation is
sound against the working state at its emission point. -/
theorem balance_pass_spec {nl : NodeList} {rules : List String}
    {ops : List Operation} {stF : NodeList} (hwf : WellFormed nl)
    (h : balance_pass nl rules = .ok (ops, stF)) :
    stF = replay nl ops ∧ sumUsed stF = sumUsed nl ∧ TraceOk nl ops ∧ WellFormed stF := by
  unfold balance_pass at h
  exact process_nodes_spec _ (nl.map (fun e => e.1)) nl ops stF hwf h

/-! ### Minimality of the candidate selection (under positive projections) -/

theorem usedOf_eq {nl : NodeList} {n : String} {nd : Node}
    (h : findNode nl n = some nd) : usedOf nl n = nd.used_points := by
  unfold usedOf
  rw [h]
  rfl

theorem best_host_loop_isSome (cu : Rat) (c v : String) (p : Rat)
    (sep : List (List String)) :
    ∀ (l : List (String × Node)) (acc : Option String × Rat), acc.1.isSome →
      ((best_host_loop cu c v p sep l acc).1).isSome := by
  intro l
  induction l with
  | nil => exact fun acc h => h
  | cons a rest ih =>
    intro acc h
    simp only [best_host_loop]
    by_cases h1 : (a.1 == c) = true
    · rw [if_pos h1]; exact ih acc h
    · rw [if_neg h1]
      by_cases h2 : rule_skips v sep a.2 = true
      · rw [if_pos h2]; exact ih acc h
      · rw [if_neg h2]
        by_cases h3 : a.2.used_points + p < cu ∧ (a.2.used_points + p < acc.2 ∨ acc.2 = 0)
        · rw [if_pos h3]; exact ih _ rfl
        · rw [if_neg h3]; exact ih acc h

theorem best_host_loop_found (cu : Rat) (c v : String) (p : Rat)
    (sep : List (List String)) :
    ∀ (l : List (String × Node)) (acc : Option String × Rat),
      (acc.1 = none → acc.2 = 0) →
      (∃ e ∈ l, e.1 ≠ c ∧ rule_skips v sep e.2 = false ∧ e.2.used_points + p < cu) →
      ((best_host_loop cu c v p sep l acc).1).isSome := by
  intro l
  induction l with
  | nil =>
    intro acc _ hw
    rcases hw with ⟨e, he, _⟩
    cases he
  | cons a rest ih =>
    intro acc hsent hw
    rcases hw with ⟨w, hwm, hwc⟩
    simp only [best_host_loop]
    by_cases h1 : (a.1 == c) = true
    · rw [if_pos h1]
      rcases List.mem_cons.mp hwm with hwa | hwr
      · exact absurd (by simpa using h1) (hwa ▸ hwc.1)
      · exact ih acc hsent ⟨w, hwr, hwc⟩
    · rw [if_neg h1]
      by_cases h2 : rule_skips v sep a.2 = true
      · rw [if_pos h2]
        rcases List.mem_cons.mp hwm with hwa | hwr
        · rw [← hwa] at h2
          rw [hwc.2.1] at h2
          cases h2
        · exact ih acc hsent ⟨w, hwr, hwc⟩
      · rw [if_neg h2]
        by_cases h3 : a.2.used_points + p < cu ∧ (a.2.used_points + p < acc.2 ∨ acc.2 = 0)
        · rw [if_pos h3]
          exact best_host_loop_isSome cu c v p sep rest _ rfl
        · rw [if_neg h3]
          rcases List.mem_cons.mp hwm with hwa | hwr
          · have hacc : acc.1.isSome := by
              cases hacc0 : acc.1 with
              | some t0 => rfl
              | none =>
                exfalso
                exact h3 ⟨hwa ▸ hwc.2.2, Or.inr (hsent hacc0)⟩
            exact best_host_loop_isSome cu c v p sep rest acc hacc
          · exact ih acc hsent ⟨w, hwr, hwc⟩

theorem best_host_loop_le (cu : Rat) (c v : String) (p : Rat)
    (sep : List (List String)) :
    ∀ (l : List (String × Node)) (acc : Option String × Rat),
      (∀ e ∈ l, 0 < e.2.used_points + p) → acc.1.isSome → 0 < acc.2 →
      (best_host_loop cu c v p sep l acc).2 ≤ acc.2 ∧
        0 < (best_host_loop cu c v p sep l acc).2 := by
  intro l
  induction l with
  | nil => exact fun acc _ _ h => ⟨le_refl _, h⟩
  | cons a rest ih =>
    intro acc hpos hsome haccpos
    have hposr : ∀ e ∈ rest, 0 < e.2.used_points + p :=
      fun e he => hpos e (List.mem_cons_of_mem a he)
    simp only [best_host_loop]
    by_cases h1 : (a.1 == c) = true
    · rw [if_pos h1]; exact ih acc hposr hsome haccpos
    · rw [if_neg h1]
      by_cases h2 : rule_skips v sep a.2 = true
      · rw [if_pos h2]; exact ih acc hposr hsome haccpos
      · rw [if_neg h2]
        by_cases h3 : a.2.used_points + p < cu ∧ (a.2.used_points + p < acc.2 ∨ acc.2 = 0)
        · rw [if_pos h3]
          have hnp : 0 < a.2.used_points + p := hpos a (List.mem_cons_self a rest)
          have hlt : a.2.used_points + p < acc.2 := by
            rcases h3.2 with h4 | h4
            · exact h4
            · exact absurd h4 (ne_of_gt haccpos)
          have := ih (some a.1, a.2.used_points + p) hposr rfl hnp
          exact ⟨this.1.trans (le_of_lt hlt), this.2⟩
        · rw [if_neg h3]; exact ih acc hposr hsome haccpos

theorem best_host_loop_min (cu : Rat) (c v : String) (p : Rat)
    (sep : List (List String)) :
    ∀ (l : List (String × Node)) (acc : Option String × Rat),
      (∀ e ∈ l, 0 < e.2.used_points + p) →
      (acc.1 = none → acc.2 = 0) →
      (acc.1.isSome → 0 < acc.2) →
      ∀ e ∈ l, e.1 ≠ c → rule_skips v sep e.2 = false → e.2.used_points + p < cu →
        (best_host_loop cu c v p sep l acc).2 ≤ e.2.used_points + p := by
  intro l
  induction l with
  | nil =>
    intro acc _ _ _ e he
    cases he
  | cons a rest ih =>
    intro acc hpos hsent haccpos e hem hec hesk helt
    have hposr : ∀ q ∈ rest, 0 < q.2.used_points + p :=
      fun q hq => hpos q (List.mem_cons_of_mem a hq)
    simp only [best_host_loop]
    by_cases h1 : (a.1 == c) = true
    · rw [if_pos h1]
      rcases List.mem_cons.mp hem with hea | her
      · exact absurd (by simpa using h1) (hea ▸ hec)
      · exact ih acc hposr hsent haccpos e her hec hesk helt
    · rw [if_neg h1]
      by_cases h2 : rule_skips v sep a.2 = true
      · rw [if_pos h2]
        rcases List.mem_cons.mp hem with hea | her
        · rw [← hea, hesk] at h2
          cases h2
        · exact ih acc hposr hsent haccpos e her hec hesk helt
      · rw [if_neg h2]
        by_cases h3 : a.2.used_points + p < cu ∧ (a.2.used_points + p < acc.2 ∨ acc.2 = 0)
        · rw [if_pos h3]
          have hnp : 0 < a.2.used_points + p := hpos a (List.mem_cons_self a rest)
          rcases List.mem_cons.mp hem with hea | her
          · have := best_host_loop_le cu c v p sep rest
              (some a.1, a.2.used_points + p) hposr rfl hnp
            rw [hea]
            exact this.1
          · exact ih (some a.1, a.2.used_points + p) hposr (by intro hh; cases hh)
              (fun _ => hnp) e her hec hesk helt
        · rw [if_neg h3]
          rcases List.mem_cons.mp hem with hea | her
          · have hlt : a.2.used_points + p < cu := hea ▸ helt
            have hne0 : acc.2 ≠ 0 := by
              intro h0
              exact h3 ⟨hlt, Or.inr h0⟩
            have hsome : acc.1.isSome := by
              cases hacc0 : acc.1 with
              | some t0 => rfl
              | none => exact absurd (hsent hacc0) hne0
            have hle : acc.2 ≤ a.2.used_points + p := by
              by_contra hcon
              exact h3 ⟨hlt, Or.inl (lt_of_not_le hcon)⟩
            have := best_host_loop_le cu c v p sep rest acc hposr hsome (haccpos hsome)
            rw [hea]
            exact this.1.trans hle
          · exact ih acc hposr hsent haccpos e her hec hesk helt

theorem vmPoints_nonneg {nl : NodeList}
    (hnn : ∀ e ∈ nl, ∀ q ∈ e.2.vms, 0 ≤ q.2) (h v : String) :
    0 ≤ vmPoints nl h v := by
  unfold vmPoints
  cases hf : findNode nl h with
  | none => exact le_refl (0 : Rat)
  | some nd =>
    show (0 : Rat) <= ((nd.vms.find? (fun p => p.1 == v)).map (fun p => p.2)).getD 0
    cases hq : nd.vms.find? (fun p => p.1 == v) with
    | none => exact le_refl (0 : Rat)
    | some q =>
      show (0 : Rat) <= q.2
      exact hnn (h, nd) (findNode_mem hf) q (List.mem_of_find?_eq_some hq)

/-! ### Concrete evaluations of the embedded code -/

theorem eval_nlC3 : balance_pass nlC3 [] = .ok (opsC3, stFC3) := by
  repeat
    first
      | rfl
      | (norm_num [balance, balance_pass, process_nodes, process_vms, calculate_best_host,
          best_host_loop, get_totals, calculate_imbalance, imbalance_loop, pyabs, findNode,
          rule_skips, updateUsed, usedOf, pySplitComma, splitCommaAux, List.find?,
          nlC7, opsC7, stFC7, nlC1, opsC1, stFC1, nlC3, opsC3, stFC3, nlC8, opsC8, stFC8,
          nlC5, nlC6]
         try simp +decide)

theorem eval_nlC1 : balance_pass nlC1 ["X,Y"] = .ok (opsC1, stFC1) := by
  repeat
    first
      | rfl
      | (norm_num [balance, balance_pass, process_nodes, process_vms, calculate_best_host,
          best_host_loop, get_totals, calculate_imbalance, imbalance_loop, pyabs, findNode,
          rule_skips, updateUsed, usedOf, pySplitComma, splitCommaAux, List.find?,
          nlC7, opsC7, stFC7, nlC1, opsC1, stFC1, nlC3, opsC3, stFC3, nlC8, opsC8, stFC8,
          nlC5, nlC6]
         try simp +decide)

theorem eval_nlC8 : balance_pass nlC8 ["ghost,X"] = .ok (opsC8, stFC8) := by
  repeat
    first
      | rfl
      | (norm_num [balance, balance_pass, process_nodes, process_vms, calculate_best_host,
          best_host_loop, get_totals, calculate_imbalance, imbalance_loop, pyabs, findNode,
          rule_skips, updateUsed, usedOf, pySplitComma, splitCommaAux, List.find?,
          nlC7, opsC7, stFC7, nlC1, opsC1, stFC1, nlC3, opsC3, stFC3, nlC8, opsC8, stFC8,
          nlC5, nlC6]
         try simp +decide)

theorem eval_imbalance_nlC7 : calculate_imbalance nlC7 = .ok 60 := by
  repeat
    first
      | rfl
      | (norm_num [balance, balance_pass, process_nodes, process_vms, calculate_best_host,
          best_host_loop, get_totals, calculate_imbalance, imbalance_loop, pyabs, findNode,
          rule_skips, updateUsed, usedOf, pySplitComma, splitCommaAux, List.find?,
          nlC7, opsC7, stFC7, nlC1, opsC1, stFC1, nlC3, opsC3, stFC3, nlC8, opsC8, stFC8,
          nlC5, nlC6]
         try simp +decide)

theorem eval_balance_nlC7 : balance nlC7 20 [] = .ok (opsC7, stFC7) := by
  repeat
    first
      | rfl
      | (norm_num [balance, balance_pass, process_nodes, process_vms, calculate_best_host,
          best_host_loop, get_totals, calculate_imbalance, imbalance_loop, pyabs, findNode,
          rule_skips, updateUsed, usedOf, pySplitComma, splitCommaAux, List.find?,
          nlC7, opsC7, stFC7, nlC1, opsC1, stFC1, nlC3, opsC3, stFC3, nlC8, opsC8, stFC8,
          nlC5, nlC6]
         try simp +decide)

theorem eval_nlC5 : calculate_best_host nlC5 "s" "v" 3 [] = .ok (some "c") := by
  repeat
    first
      | rfl
      | (norm_num [balance, balance_pass, process_nodes, process_vms, calculate_best_host,
          best_host_loop, get_totals, calculate_imbalance, imbalance_loop, pyabs, findNode,
          rule_skips, updateUsed, usedOf, pySplitComma, splitCommaAux, List.find?,
          nlC7, opsC7, stFC7, nlC1, opsC1, stFC1, nlC3, opsC3, stFC3, nlC8, opsC8, stFC8,
          nlC5, nlC6]
         try simp +decide)

theorem eval_imbalance_nlC6 : calculate_imbalance nlC6 = .ok 0 := by
  repeat
    first
      | rfl
      | (norm_num [balance, balance_pass, process_nodes, process_vms, calculate_best_host,
          best_host_loop, get_totals, calculate_imbalance, imbalance_loop, pyabs, findNode,
          rule_skips, updateUsed, usedOf, pySplitComma, splitCommaAux, List.find?,
          nlC7, opsC7, stFC7, nlC1, opsC1, stFC1, nlC3, opsC3, stFC3, nlC8, opsC8, stFC8,
          nlC5, nlC6]
         try simp +decide)

/-! ### The claims -/

/-- C1 (code bug): anti-affinity safety is violated by the code.  On
`nlC1` with the separate rule "X,Y" (parsed to the group {X, Y}), the
pass first moves Y from B to C and — because `balance_pass` updates only
`used_points`, never the `vms` membership — later also moves X onto C:
after applying both emitted operations, X and Y of the same group reside
on node C together. -/
theorem C1_antiaffinity_violated :
    balance_pass nlC1 ["X,Y"] = .ok (opsC1, stFC1) ∧
    "X" ∈ pySplitComma "X,Y" ∧ "Y" ∈ pySplitComma "X,Y" ∧
    finalHost nlC1 opsC1 "X" = some "C" ∧ finalHost nlC1 opsC1 "Y" = some "C" := by
  refine ⟨eval_nlC1, by decide, by decide, ?_, ?_⟩ <;>
    simp [finalHost, initialHost, nlC1, opsC1, List.find?]

/-- C2 (confirmed): conservation.  For every well-formed cluster state,
the sum of `used_points` over all nodes after the pass equals the sum
before: each emitted operation subtracts the workload's points from the
source and adds exactly the same points to the target. -/
theorem C2_conservation (nl : NodeList) (rules : List String) (ops : List Operation)
    (stF : NodeList) (hwf : WellFormed nl)
    (h : balance_pass nl rules = .ok (ops, stF)) : sumUsed stF = sumUsed nl :=
  (balance_pass_spec hwf h).2.1

/-- Witness for C2 at the concrete cluster `nlC3`. -/
theorem C2_conservation_witness : sumUsed stFC3 = sumUsed nlC3 :=
  C2_conservation nlC3 [] opsC3 stFC3 (by decide) eval_nlC3

/-- C3 (code bug): the planner does not consider workloads in descending
order of points.  On `nlC3` the code emits a migration for v1 (1 point,
first in dict insertion order) and then cannot move v2 (5 points), even
though v2 had an eligible target in the initial state (last conjunct) and
a largest-first enumeration would therefore have migrated v2 first.  The
sort of `vm_list` at main.py lines 100-102 is dead code: the sorted list
is never read by the pass. -/
theorem C3_largest_first_violated :
    balance_pass nlC3 [] = .ok (opsC3, stFC3) ∧
    opsC3 = [{ vm_name := "v1", host := "A", target := "B" }] ∧
    vmPoints nlC3 "A" "v1" < vmPoints nlC3 "A" "v2" ∧
    calculate_best_host nlC3 "A" "v2" 5 [] = .ok (some "B") := by
  refine ⟨eval_nlC3, rfl, ?_, ?_⟩ <;>
    repeat
      first
        | rfl
        | (norm_num [vmPoints, calculate_best_host, best_host_loop, get_totals, findNode,
            rule_skips, nlC3, List.find?]
           try simp +decide)

/-- C4 (confirmed): local improvement.  Every emitted operation, judged
against the working state at its emission point (the replay of the
already-emitted prefix), satisfies
`target.used_points + workload.points < source.used_points`. -/
theorem C4_local_improvement (nl : NodeList) (rules : List String) (ops : List Operation)
    (stF : NodeList) (hwf : WellFormed nl)
    (h : balance_pass nl rules = .ok (ops, stF)) :
    ∀ i (hi : i < ops.length),
      usedOf (replay nl (ops.take i)) (ops.get ⟨i, hi⟩).target +
        vmPoints nl (ops.get ⟨i, hi⟩).host (ops.get ⟨i, hi⟩).vm_name <
        usedOf (replay nl (ops.take i)) (ops.get ⟨i, hi⟩).host := by
  intro i hi
  have htr := traceOk_index (balance_pass_spec hwf h).2.2.1 i hi
  have h4 := htr.2.2.2
  rwa [vmPoints_replay] at h4

/-- Witness for C4 at the concrete cluster `nlC3`, first operation. -/
theorem C4_local_improvement_witness :
    usedOf nlC3 "B" + vmPoints nlC3 "A" "v1" < usedOf nlC3 "A" := by
  have h := C4_local_improvement nlC3 [] opsC3 stFC3 (by decide) eval_nlC3 0 (by decide)
  simpa [opsC3, replay_nil] using h

/-- C5 (corrected, counterexample): with two eligible candidates "c" and
"a" of equal projected load, the code selects "c" (first encountered in
node-list order), not "a" (the smaller identifier), refuting the claimed
tie-break by node identifier. -/
theorem C5_counterexample :
    calculate_best_host nlC5 "s" "v" 3 [] = .ok (some "c") ∧
    ("a", ({ points := 100, used_points := 2, vms := [] } : Node)) ∈ nlC5 ∧
    eligibleFor nlC5 "s" "v" 3 [] ("a", { points := 100, used_points := 2, vms := [] }) ∧
    ("c", ({ points := 100, used_points := 2, vms := [] } : Node)) ∈ nlC5 ∧
    eligibleFor nlC5 "s" "v" 3 [] ("c", { points := 100, used_points := 2, vms := [] }) ∧
    usedOf nlC5 "a" = usedOf nlC5 "c" ∧ "a".data < "c".data := by
  refine ⟨eval_nlC5, by simp [nlC5], ?_, by simp [nlC5], ?_, ?_, by decide⟩ <;>
    repeat
      first
        | rfl
        | decide
        | (norm_num [eligibleFor, rule_skips, usedOf, findNode, nlC5, List.find?]
           try simp +decide)

/-- C5 (corrected, amended): provided every node's `used_points` is
non-negative and the workload's points are positive (so no projected load
is 0, the value the code conflates with its "nothing selected yet"
sentinel), the planner selects an eligible candidate whose projected load
`used_points + points` is minimal among all eligible candidates — but
ties go to the candidate met first in node-list order, not to the smaller
identifier.  The first conjunct: a selection is made whenever an eligible
candidate exists (and the current node is present, as it always is when
called from `balance_pass`). -/
theorem C5_minimal_projected (nl : NodeList) (c v : String) (p : Rat)
    (sep : List (List String))
    (hnn : ∀ e ∈ nl, 0 ≤ e.2.used_points) (hp : 0 < p) :
    ((∃ cur, findNode nl c = some cur) → (∃ e ∈ nl, eligibleFor nl c v p sep e) →
      ∃ t, calculate_best_host nl c v p sep = .ok (some t)) ∧
    (∀ t, calculate_best_host nl c v p sep = .ok (some t) →
      ∃ nd, (t, nd) ∈ nl ∧ eligibleFor nl c v p sep (t, nd) ∧
        ∀ e ∈ nl, eligibleFor nl c v p sep e →
          nd.used_points + p ≤ e.2.used_points + p) := by
  have hpos : ∀ e ∈ nl, 0 < e.2.used_points + p :=
    fun e he => add_pos_of_nonneg_of_pos (hnn e he) hp
  constructor
  · rintro ⟨cur, hcur⟩ ⟨e, he, helig⟩
    have hne : nl ≠ [] := by
      intro hnil
      rw [hnil] at he
      cases he
    unfold calculate_best_host
    rcases get_totals_ok hne with ⟨r0, hr0⟩
    rw [hr0, hcur]
    show ∃ t, Except.ok (best_host_loop cur.used_points c v p sep nl (none, 0)).1 =
      Except.ok (some t)
    have hfound := best_host_loop_found cur.used_points c v p sep nl (none, 0)
      (fun _ => rfl)
      ⟨e, he, helig.1, helig.2.1, by rw [← usedOf_eq hcur]; exact helig.2.2⟩
    rcases Option.isSome_iff_exists.mp hfound with ⟨t, ht⟩
    exact ⟨t, by rw [ht]⟩
  · intro t hres
    unfold calculate_best_host at hres
    cases hg : get_totals nl with
    | error e0 => rw [hg] at hres; cases hres
    | ok r0 =>
      rw [hg] at hres
      cases hf : findNode nl c with
      | none => rw [hf] at hres; cases hres
      | some cur =>
        rw [hf] at hres
        have h2 : (best_host_loop cur.used_points c v p sep nl (none, 0)).1 = some t := by
          injection hres
        have h3 : best_host_loop cur.used_points c v p sep nl (none, 0) =
            (some t, (best_host_loop cur.used_points c v p sep nl (none, 0)).2) := by
          cases hb : best_host_loop cur.used_points c v p sep nl (none, 0)
          rw [hb] at h2
          simp only at h2
          rw [h2]
        rcases best_host_loop_sound cur.used_points c v p sep nl (none, 0) t _ h3 with
          hl | ⟨nd, hmem, htc, hsk, htp, hlt⟩
        · exact absurd (congrArg Prod.fst hl) (by simp)
        · refine ⟨nd, hmem, ⟨htc, hsk, ?_⟩, ?_⟩
          · rw [usedOf_eq hf]
            exact hlt
          · intro e he helig
            have hmin := best_host_loop_min cur.used_points c v p sep nl (none, 0)
              hpos (fun _ => rfl) (by intro hh; simp at hh) e he helig.1 helig.2.1
              (by rw [← usedOf_eq hf]; exact helig.2.2)
            rw [htp] at hmin
            exact hmin

/-- Witness for the amended C5 at the concrete cluster `nlC5`. -/
theorem C5_minimal_projected_witness :
    ∃ nd, ("c", nd) ∈ nlC5 ∧ eligibleFor nlC5 "s" "v" 3 [] ("c", nd) ∧
      ∀ e ∈ nlC5, eligibleFor nlC5 "s" "v" 3 [] e →
        nd.used_points + 3 ≤ e.2.used_points + 3 :=
  (C5_minimal_projected nlC5 "s" "v" 3 [] (by norm_num [nlC5]) (by norm_num)).2
    "c" eval_nlC5

/-- C6 (confirmed): the gate.  Whenever `calculate_imbalance` yields
total disparity `d`, the planner runs if and only if
`d > nodeCount * allowedDisparity`; otherwise the operation list is empty
and the node list untouched. -/
theorem C6_gate (nl : NodeList) (allowed : Rat) (rules : List String) (d : Rat)
    (hd : calculate_imbalance nl = .ok d) :
    (¬ d > (nl.length : Rat) * allowed → balance nl allowed rules = .ok ([], nl)) ∧
    (d > (nl.length : Rat) * allowed → balance nl allowed rules = balance_pass nl rules) := by
  constructor
  · intro hle
    unfold balance
    rw [hd]
    show (if d > (nl.length : Rat) * allowed then balance_pass nl rules
      else Except.ok ([], nl)) = Except.ok ([], nl)
    rw [if_neg hle]
  · intro hgt
    unfold balance
    rw [hd]
    show (if d > (nl.length : Rat) * allowed then balance_pass nl rules
      else Except.ok ([], nl)) = balance_pass nl rules
    rw [if_pos hgt]

/-- Witness for C6 at the balanced cluster `nlC6` (disparity 0 ≤ 2·20). -/
theorem C6_gate_witness : balance nlC6 20 [] = .ok ([], nlC6) :=
  (C6_gate nlC6 20 [] 0 eval_imbalance_nlC6).1 (by norm_num)

/-- C7 (corrected, counterexample): on the worked scenario the code does
not emit exactly one operation leaving A=30, B=70 — it emits two
operations and leaves both nodes at 50 (after moving X to B, node B at 70
is now the heavier node, so Z is moved back to A). -/
theorem C7_counterexample :
    balance nlC7 20 [] = .ok (opsC7, stFC7) ∧
    opsC7.length = 2 ∧ opsC7.length ≠ 1 ∧
    usedOf stFC7 "A" ≠ 30 ∧ usedOf stFC7 "B" ≠ 70 := by
  refine ⟨eval_balance_nlC7, by decide, by decide, ?_, ?_⟩ <;>
    repeat
      first
        | rfl
        | (norm_num [usedOf, findNode, stFC7, List.find?]
           try simp +decide)

/-- C7 (corrected, amended): on the worked scenario the gate triggers
(total disparity 60 > 2·20) and the planner emits exactly two
operations — X from A to B, then Z from B to A — leaving
`used_points` A = 50 and B = 50. -/
theorem C7_scenario :
    calculate_imbalance nlC7 = .ok 60 ∧ ((nlC7.length : Rat) * 20 < 60) ∧
    balance nlC7 20 [] = .ok (opsC7, stFC7) ∧
    opsC7 = [{ vm_name := "X", host := "A", target := "B" },
             { vm_name := "Z", host := "B", target := "A" }] ∧
    usedOf stFC7 "A" = 50 ∧ usedOf stFC7 "B" = 50 := by
  refine ⟨eval_imbalance_nlC7, by norm_num [nlC7], eval_balance_nlC7, rfl, ?_, ?_⟩ <;>
    repeat
      first
        | rfl
        | (norm_num [usedOf, findNode, stFC7, List.find?]
           try simp +decide)

/-- C8 (corrected, counterexample): a separate rule naming the unknown
workload "ghost" does not abort planning — the pass completes and
produces a non-empty operation list; "ghost" simply never matches any
hosted workload. -/
theorem C8_counterexample :
    balance_pass nlC8 ["ghost,X"] = .ok (opsC8, stFC8) ∧ opsC8 ≠ [] ∧
    "ghost" ∈ pySplitComma "ghost,X" ∧
    (∀ e ∈ nlC8, "ghost" ∉ e.2.vms.map (fun q => q.1)) := by
  refine ⟨eval_nlC8, by decide, by decide, ?_⟩
  simp [nlC8]

/-- C8 (corrected, amended): planning is never aborted — `balance_pass`
returns an operation list for every cluster state and every rule set, in
particular when an anti-affinity group references an unknown workload
identifier (the unknown name is silently ignored). -/
theorem C8_no_abort (nl : NodeList) (rules : List String) :
    ∃ ops stF, balance_pass nl rules = .ok (ops, stF) := by
  unfold balance_pass
  rcases process_nodes_total (rules.map (fun rule => pySplitComma rule))
    (nl.map (fun e => e.1)) nl [] (fun n hn => hn) with ⟨ops, stF, h, _⟩
  exact ⟨ops, stF, h⟩

/-- C9 (corrected, counterexample): with zero nodes `get_totals` does
reach the division `total_used_points / total_nodes` with
`total_nodes = 0`; the `Except.error PyErr.zeroDivisionError` value is
precisely the model of Python raising `ZeroDivisionError` from that
division — there is no explicit zero-node guard. -/
theorem C9_counterexample :
    get_totals ([] : NodeList) = .error PyErr.zeroDivisionError := rfl

/-- C9 (corrected, amended): on a zero-node cluster the imbalance
computation aborts with the unhandled `ZeroDivisionError` raised by
computing `avg_points = total_used_points / 0` itself (not by an explicit
pre-check); no plan is produced. -/
theorem C9_zero_nodes_raises :
    calculate_imbalance ([] : NodeList) = .error PyErr.zeroDivisionError := rfl

/-- C10 (confirmed): every emitted operation's target differs from its
source, and — when all workload points are non-negative — the target's
`used_points` at selection time are strictly below the source's, so a
workload on a node of minimal current load is never moved. -/
theorem C10_moves_downhill (nl : NodeList) (rules : List String) (ops : List Operation)
    (stF : NodeList) (hwf : WellFormed nl)
    (hnn : ∀ e ∈ nl, ∀ q ∈ e.2.vms, 0 ≤ q.2)
    (h : balance_pass nl rules = .ok (ops, stF)) :
    ∀ i (hi : i < ops.length),
      (ops.get ⟨i, hi⟩).target ≠ (ops.get ⟨i, hi⟩).host ∧
      usedOf (replay nl (ops.take i)) (ops.get ⟨i, hi⟩).target <
        usedOf (replay nl (ops.take i)) (ops.get ⟨i, hi⟩).host := by
  intro i hi
  have htr := traceOk_index (balance_pass_spec hwf h).2.2.1 i hi
  refine ⟨htr.1, ?_⟩
  have h4 := htr.2.2.2
  have h5 : 0 ≤ vmPoints (replay nl (ops.take i))
      (ops.get ⟨i, hi⟩).host (ops.get ⟨i, hi⟩).vm_name := by
    rw [vmPoints_replay]
    exact vmPoints_nonneg hnn _ _
  linarith

/-- Witness for C10 at the concrete cluster `nlC3`, first operation. -/
theorem C10_moves_downhill_witness :
    (("B" : String) ≠ "A") ∧ usedOf nlC3 "B" < usedOf nlC3 "A" := by
  have h := C10_moves_downhill nlC3 [] opsC3 stFC3 (by decide)
    (by
      norm_num [nlC3]
      rintro a b (⟨h1, rfl⟩ | ⟨h1, rfl⟩) <;> norm_num)
    eval_nlC3 0 (by decide)
  simpa [opsC3, replay_nil] using h

end ProxmoxBalance
